import Mathlib

/-!
Verification of the forecasting core of the cpsplines repository.

We give a shallow embedding, over exact rationals, of:

* `displaced_forecast_covid` (src/cpsplines/utils/clean_data_covid.py),
  together with a model of `numpy.arange` (`none` models the
  `ZeroDivisionError` numpy raises on a zero step);
* `get_idx_fitting_region` and `get_weighted_B`
  (src/template/utils/fast_forecast_mat.py), both as pure functions on
  row-lists and as a state-passing program over an explicit store of
  allocated arrays (to talk about mutation and freshness);
* the B-spline design-matrix evaluator, modelled from the spec via the
  Cox-de Boor recursion (the class `BsplineBasis` itself is not part of
  the visible sources).
-/

namespace CPSplines

/-- Model of `numpy.arange` element count: `ceil((stop - start) / step)`,
clamped at zero (so an empty range when the quotient is nonpositive). -/
def arangeLen (start stop step : ℚ) : ℕ :=
  (Int.ceil ((stop - start) / step)).toNat

/-- Model of `numpy.arange(start, stop, step)` over exact rationals.
`none` models the `ZeroDivisionError` numpy raises when `step == 0`;
otherwise the result is `[start, start + step, ...]` with
`ceil((stop - start) / step)` elements (clamped at zero). -/
def arange (start stop step : ℚ) : Option (List ℚ) :=
  if step = 0 then none
  else some ((List.range (arangeLen start stop step)).map
    (fun (i : ℕ) => start + (i : ℚ) * step))

/-- Result record of `displaced_forecast_covid` (the dictionary the
Python function returns). -/
structure ForecastResult where
  x_last : ℚ
  x_pred : List ℚ
  deriv_pred : List ℚ
deriving DecidableEq, Repr

/-- Embedding of `displaced_forecast_covid`
(src/cpsplines/utils/clean_data_covid.py, lines 219-225):
`x_last = xmax + lag * len(deriv)`;
`deriv_pred = [elem * factor_deriv for elem in deriv]`;
`x_pred = np.arange(xmax + lag, x_last + lag, lag)`.
The `Option` propagates the error of `np.arange` on a zero `lag`. -/
def displaced_forecast_covid (deriv : List ℚ) (xmax lag factor_deriv : ℚ) :
    Option ForecastResult :=
  let x_last := xmax + lag * (deriv.length : ℚ)
  let deriv_pred := deriv.map (fun elem => elem * factor_deriv)
  (arange (xmax + lag) (x_last + lag) lag).map
    (fun x_pred => ⟨x_last, x_pred, deriv_pred⟩)

/-- With a nonzero positive step, a span of exactly `n` steps yields `n`
arange elements. -/
lemma arangeLen_mul (start step : ℚ) (n : ℕ) (hstep : step ≠ 0) :
    arangeLen start (start + step * n) step = n := by
  unfold arangeLen
  have h1 : start + step * (n : ℚ) - start = step * n := by ring
  rw [h1, mul_div_cancel_left₀ _ hstep]
  simp

/-- Full characterisation of `displaced_forecast_covid` at a nonzero lag:
it succeeds, `x_last = xmax + lag * len(deriv)`, `x_pred` is the arithmetic
range of `len(deriv)` points starting at `xmax + lag` with step `lag`, and
`deriv_pred` is the elementwise scaling of `deriv`. -/
lemma displaced_forecast_covid_eq (deriv : List ℚ) (xmax lag factor_deriv : ℚ)
    (hlag : lag ≠ 0) :
    displaced_forecast_covid deriv xmax lag factor_deriv =
      some ⟨xmax + lag * (deriv.length : ℚ),
            (List.range deriv.length).map
              (fun (i : ℕ) => (xmax + lag) + (i : ℚ) * lag),
            deriv.map (fun elem => elem * factor_deriv)⟩ := by
  have hspan : xmax + lag * (deriv.length : ℚ) + lag
      = (xmax + lag) + lag * (deriv.length : ℚ) := by ring
  simp only [displaced_forecast_covid, arange, if_neg hlag]
  rw [hspan, arangeLen_mul _ _ _ hlag]
  rfl

/-- Last element of the arithmetic range of `n + 1` points starting at
`s` with step `d`: it is `s + n * d`. -/
lemma arith_range_getLast (s d : ℚ) (n : ℕ) :
    ((List.range (n + 1)).map (fun (i : ℕ) => s + (i : ℚ) * d)).getLast?
      = some (s + (n : ℚ) * d) := by
  rw [List.range_succ, List.map_append]
  simp [List.getLast?_concat]

/-! ## FittingRegionMasker
(src/template/utils/fast_forecast_mat.py), pure model.

A B-spline basis is modelled by the attributes the visible source reads:
the sample sites `xsample`, the extension counts `int_back`/`int_forw`,
and the design matrix `matrixB` as a list of rows. -/

/-- The attributes of `BsplineBasis` read by the visible sources. -/
structure BsplineBasis where
  xsample : List ℚ
  int_back : ℕ
  int_forw : ℕ
  matrixB : List (List ℚ)
deriving DecidableEq, Repr

/-- Embedding of `get_idx_fitting_region`
(src/template/utils/fast_forecast_mat.py, lines 26-29): one half-open
row range `slice(int_back, int_back + len(xsample))` per basis,
represented as the pair of its endpoints. -/
def get_idx_fitting_region (bspline_bases : List BsplineBasis) :
    List (ℕ × ℕ) :=
  bspline_bases.map
    (fun bsp => (bsp.int_back, bsp.int_back + bsp.xsample.length))

/-- Model of `np.zeros(m.shape)`: a matrix of zeros with the shape of
`m`. -/
def zerosLike (m : List (List ℚ)) : List (List ℚ) :=
  m.map (fun row => row.map (fun _ => (0 : ℚ)))

/-- Model of the numpy row-slice assignment `dst[lo:hi, :] = src[lo:hi, :]`:
rows with index in `[lo, hi)` are taken from `src`, the others kept. -/
def sliceAssign (dst src : List (List ℚ)) (lo hi : ℕ) : List (List ℚ) :=
  dst.mapIdx (fun i row => if lo ≤ i ∧ i < hi then src.getD i row else row)

/-- The per-axis body of `get_weighted_B`: a zero matrix of the shape of
`m` whose rows in `[lo, hi)` are copied from `m`. -/
def weightedB (m : List (List ℚ)) (lo hi : ℕ) : List (List ℚ) :=
  sliceAssign (zerosLike m) m lo hi

/-- Embedding of `get_weighted_B`
(src/template/utils/fast_forecast_mat.py, lines 50-56): for each basis,
`B_weighted = np.zeros(bsp.matrixB.shape)` followed by
`B_weighted[idx_fitting_region[i], :] = bsp.matrixB[idx_fitting_region[i], :]`. -/
def get_weighted_B (bspline_bases : List BsplineBasis) :
    List (List (List ℚ)) :=
  (bspline_bases.zip (get_idx_fitting_region bspline_bases)).map
    (fun p => weightedB p.1.matrixB p.2.1 p.2.2)

lemma length_zerosLike (m : List (List ℚ)) :
    (zerosLike m).length = m.length := by
  simp [zerosLike]

lemma length_sliceAssign (dst src : List (List ℚ)) (lo hi : ℕ) :
    (sliceAssign dst src lo hi).length = dst.length := by
  simp [sliceAssign]

lemma length_weightedB (m : List (List ℚ)) (lo hi : ℕ) :
    (weightedB m lo hi).length = m.length := by
  simp [weightedB, length_sliceAssign, length_zerosLike]

/-- Row `i` of `weightedB m lo hi`: the row of `m` inside the slice,
the all-zero row of the same length outside it. -/
lemma weightedB_getD (m : List (List ℚ)) (lo hi i : ℕ)
    (h : i < m.length) :
    (weightedB m lo hi).getD i []
      = if lo ≤ i ∧ i < hi then m.getD i []
        else (m.getD i []).map (fun _ => (0 : ℚ)) := by
  have hz : i < (zerosLike m).length := by rwa [length_zerosLike]
  have hw : i < (weightedB m lo hi).length := by rwa [length_weightedB]
  rw [List.getD_eq_get _ _ hw]
  show ((zerosLike m).mapIdx
      (fun j row => if lo ≤ j ∧ j < hi then m.getD j row else row)).get
      ⟨i, hw⟩ = _
  rw [List.get_mapIdx _ _ _ hz]
  by_cases hc : lo ≤ i ∧ i < hi
  · rw [if_pos hc, if_pos hc, List.getD_eq_get _ _ h, List.getD_eq_get _ _ h]
  · rw [if_neg hc, if_neg hc, List.get_eq_getElem, List.getD_eq_getElem _ _ h]
    show (List.map (fun row => row.map (fun _ => (0 : ℚ))) m)[i] = _
    rw [List.getElem_map]

/-- Masking with the same slice twice is the same as masking once. -/
lemma weightedB_idem (m : List (List ℚ)) (lo hi : ℕ) :
    weightedB (weightedB m lo hi) lo hi = weightedB m lo hi := by
  apply List.ext_getElem
  · rw [length_weightedB, length_weightedB]
  intro i h1 h2
  have hm : i < m.length := by rwa [length_weightedB, length_weightedB] at h1
  have hw : i < (weightedB m lo hi).length := by rwa [length_weightedB]
  rw [← List.getD_eq_getElem _ ([]) h1, ← List.getD_eq_getElem _ ([]) h2,
    weightedB_getD _ lo hi i hw, weightedB_getD _ lo hi i hm]
  by_cases hc : lo ≤ i ∧ i < hi
  · simp only [if_pos hc]
  · simp only [if_neg hc, List.map_map]
    rfl

/-- Masking with the slice covering every row is the identity. -/
lemma weightedB_full (m : List (List ℚ)) :
    weightedB m 0 m.length = m := by
  apply List.ext_getElem
  · rw [length_weightedB]
  intro i h1 h2
  rw [← List.getD_eq_getElem _ ([]) h1, ← List.getD_eq_getElem _ ([]) h2,
    weightedB_getD _ 0 m.length i h2, if_pos ⟨Nat.zero_le i, h2⟩]

/-! ## FittingRegionMasker, state-passing model.

To speak about mutation and freshness we re-run `get_weighted_B` over an
explicit store of allocated numpy arrays: a reference is an index into
the store, `np.zeros` allocates a fresh array at the end of the store,
and the slice assignment writes through the fresh reference. -/

/-- A store of allocated arrays; a reference is an index into `arrays`. -/
structure Store where
  arrays : List (List (List ℚ))
deriving DecidableEq, Repr

/-- Dereference an array. -/
def Store.read (s : Store) (r : ℕ) : List (List ℚ) := s.arrays.getD r []

/-- Allocate a fresh array, returning the new store and its reference. -/
def Store.alloc (s : Store) (m : List (List ℚ)) : Store × ℕ :=
  (⟨s.arrays ++ [m]⟩, s.arrays.length)

/-- Overwrite the array a reference points to. -/
def Store.write (s : Store) (r : ℕ) (m : List (List ℚ)) : Store :=
  ⟨s.arrays.set r m⟩

/-- A `BsplineBasis` whose design matrix lives in the store. -/
structure BsplineBasisRef where
  xsample : List ℚ
  int_back : ℕ
  int_forw : ℕ
  matrixBRef : ℕ
deriving DecidableEq, Repr

/-- Embedding of the loop of `get_weighted_B`
(src/template/utils/fast_forecast_mat.py, lines 50-56) over the store:
for each basis, `B_weighted = np.zeros(bsp.matrixB.shape)` allocates a
fresh array, then `B_weighted[slice, :] = bsp.matrixB[slice, :]` writes
the sliced copy through the fresh reference; the references are
collected in order. -/
def get_weighted_B_heap : Store → List BsplineBasisRef → Store × List ℕ
  | s, [] => (s, [])
  | s, bsp :: rest =>
      let p := s.alloc (zerosLike (s.read bsp.matrixBRef))
      let s2 := p.1.write p.2
        (sliceAssign (p.1.read p.2) (p.1.read bsp.matrixBRef)
          bsp.int_back (bsp.int_back + bsp.xsample.length))
      let q := get_weighted_B_heap s2 rest
      (q.1, p.2 :: q.2)

lemma set_append_len (l : List α) (a b : α) :
    (l ++ [a]).set l.length b = l ++ [b] := by
  rw [List.set_append_right _ _ (Nat.le_refl _)]
  simp

/-- One loop iteration appends exactly the weighted copy of the matrix
the basis refers to. -/
lemma heap_step (s : Store) (bsp : BsplineBasisRef) :
    ((s.alloc (zerosLike (s.read bsp.matrixBRef))).1.write
        (s.alloc (zerosLike (s.read bsp.matrixBRef))).2
        (sliceAssign
          ((s.alloc (zerosLike (s.read bsp.matrixBRef))).1.read
            (s.alloc (zerosLike (s.read bsp.matrixBRef))).2)
          ((s.alloc (zerosLike (s.read bsp.matrixBRef))).1.read bsp.matrixBRef)
          bsp.int_back (bsp.int_back + bsp.xsample.length))).arrays
      = s.arrays ++
        [weightedB (s.read bsp.matrixBRef) bsp.int_back
          (bsp.int_back + bsp.xsample.length)] := by
  have hz : (s.alloc (zerosLike (s.read bsp.matrixBRef))).1.read
      (s.alloc (zerosLike (s.read bsp.matrixBRef))).2
      = zerosLike (s.read bsp.matrixBRef) := by
    show (s.arrays ++ [_]).getD s.arrays.length [] = _
    rw [List.getD_append_right _ _ _ _ (Nat.le_refl _)]
    simp
  have hr : (s.alloc (zerosLike (s.read bsp.matrixBRef))).1.read bsp.matrixBRef
      = s.read bsp.matrixBRef := by
    show (s.arrays ++ [_]).getD bsp.matrixBRef [] = s.arrays.getD bsp.matrixBRef []
    rcases Nat.lt_or_ge bsp.matrixBRef s.arrays.length with h | h
    · rw [List.getD_append _ _ _ _ h]
    · have hs : s.arrays.getD bsp.matrixBRef [] = [] :=
        List.getD_eq_default _ _ h
      rw [List.getD_append_right _ _ _ _ h, hs]
      rcases Nat.eq_or_lt_of_le h with he | hlt
      · have h0 : bsp.matrixBRef - s.arrays.length = 0 := by omega
        rw [h0]
        show zerosLike (s.arrays.getD bsp.matrixBRef []) = []
        rw [hs]
        rfl
      · exact List.getD_eq_default _ _ (by simp; omega)
  rw [hz, hr]
  show ((s.arrays ++ [zerosLike (s.read bsp.matrixBRef)]).set s.arrays.length
      _) = _
  rw [set_append_len]
  rfl

/-- Running the loop only appends to the store, and every returned
reference is fresh (at or beyond the initial store size). -/
lemma heap_run (s : Store) (bases : List BsplineBasisRef) :
    (∃ ext, (get_weighted_B_heap s bases).1.arrays = s.arrays ++ ext) ∧
      ∀ r ∈ (get_weighted_B_heap s bases).2, s.arrays.length ≤ r := by
  induction bases generalizing s with
  | nil => exact ⟨⟨[], by simp [get_weighted_B_heap]⟩, by
      simp [get_weighted_B_heap]⟩
  | cons bsp rest ih =>
    set wB := weightedB (s.read bsp.matrixBRef) bsp.int_back
      (bsp.int_back + bsp.xsample.length) with hwB
    have hs2 : ∀ s2 : Store, s2.arrays = s.arrays ++ [wB] →
        (∃ ext, (get_weighted_B_heap s2 rest).1.arrays = s.arrays ++ ext) ∧
          ∀ r ∈ (get_weighted_B_heap s2 rest).2, s.arrays.length ≤ r := by
      intro s2 h2
      obtain ⟨⟨ext, hext⟩, hrs⟩ := ih s2
      refine ⟨⟨[wB] ++ ext, by rw [hext, h2, List.append_assoc]⟩, ?_⟩
      intro r hr
      have := hrs r hr
      rw [h2] at this
      simp only [List.length_append, List.length_cons, List.length_nil] at this
      omega
    show (∃ ext, (get_weighted_B_heap _ rest).1.arrays = s.arrays ++ ext) ∧
      ∀ r ∈ s.arrays.length :: (get_weighted_B_heap _ rest).2,
        s.arrays.length ≤ r
    obtain ⟨⟨ext, hext⟩, hrs⟩ := hs2 _ (heap_step s bsp)
    refine ⟨⟨ext, hext⟩, ?_⟩
    intro r hr
    rcases List.mem_cons.mp hr with h | h
    · omega
    · exact hrs r h

/-! ## BasisEvaluator

The class building the design matrix (`BsplineBasis.get_matrix_B`) is not
among the visible sources; following the spec we model it by the standard
Cox-de Boor recursion over an extended knot sequence. -/

/-- Division with the standard B-spline convention `0/0 = 0` for
collapsed knot intervals. -/
def safeDiv (a b : ℚ) : ℚ := if b = 0 then 0 else a / b

/-- Modelled from the spec: the Cox-de Boor recursion for the B-spline
basis function `N_{i,p}` over the knot sequence `t`
(`BasisEvaluator.evaluate` is not among the visible sources; spec 4.2:
"using the standard recursive B-spline definition (de Boor / Cox-de Boor
recursion)"). -/
def coxDeBoor (t : ℕ → ℚ) : ℕ → ℕ → ℚ → ℚ
  | i, 0, x => if t i ≤ x ∧ x < t (i + 1) then 1 else 0
  | i, p + 1, x =>
      safeDiv (x - t i) (t (i + p + 1) - t i) * coxDeBoor t i p x
      + safeDiv (t (i + p + 2) - x) (t (i + p + 2) - t (i + 1))
        * coxDeBoor t (i + 1) p x

/-- A basis function vanishes outside the support `[t i, t (i+p+1))`. -/
lemma coxDeBoor_eq_zero (t : ℕ → ℚ) (ht : Monotone t) (p : ℕ) :
    ∀ (i : ℕ) (x : ℚ), x < t i ∨ t (i + p + 1) ≤ x →
      coxDeBoor t i p x = 0 := by
  induction p with
  | zero =>
    intro i x hx
    simp only [coxDeBoor]
    rw [if_neg]
    rcases hx with h | h
    · exact fun hc => absurd hc.1 (not_le.mpr h)
    · exact fun hc => absurd hc.2 (not_lt.mpr h)
  | succ p ih =>
    intro i x hx
    simp only [coxDeBoor]
    have h1 : coxDeBoor t i p x = 0 := by
      apply ih
      rcases hx with h | h
      · exact Or.inl h
      · exact Or.inr (le_trans (ht (by omega : i + p + 1 ≤ i + (p + 1) + 1)) h)
    have h2 : coxDeBoor t (i + 1) p x = 0 := by
      apply ih
      rcases hx with h | h
      · exact Or.inl (lt_of_lt_of_le h (ht (Nat.le_succ i)))
      · exact Or.inr (le_trans (ht (by omega : i + 1 + p + 1 ≤ i + (p + 1) + 1)) h)
    rw [h1, h2, mul_zero, mul_zero, add_zero]

/-- A basis function over a collapsed knot span is identically zero. -/
lemma coxDeBoor_eq_zero_of_collapsed (t : ℕ → ℚ) (ht : Monotone t)
    (i p : ℕ) (x : ℚ) (hc : t i = t (i + p + 1)) :
    coxDeBoor t i p x = 0 := by
  rcases lt_or_le x (t i) with h | h
  · exact coxDeBoor_eq_zero t ht p i x (Or.inl h)
  · exact coxDeBoor_eq_zero t ht p i x (Or.inr (hc ▸ h))

/-- The two coefficients over one knot span add up to `1` against a
basis function (or the basis function is zero when the span collapses). -/
lemma coxDeBoor_combine (t : ℕ → ℚ) (ht : Monotone t) (p u v : ℕ) (x : ℚ)
    (hv : v = u + p + 1) :
    safeDiv (x - t u) (t v - t u) * coxDeBoor t u p x
      + safeDiv (t v - x) (t v - t u) * coxDeBoor t u p x
      = coxDeBoor t u p x := by
  by_cases hd : t v - t u = 0
  · have hc : t u = t (u + p + 1) := by rw [← hv]; linarith
    rw [coxDeBoor_eq_zero_of_collapsed t ht u p x hc]
    simp
  · rw [safeDiv, safeDiv, if_neg hd, if_neg hd, div_mul_eq_mul_div,
      div_mul_eq_mul_div, div_add_div_same]
    have he : (x - t u) * coxDeBoor t u p x
        + (t v - x) * coxDeBoor t u p x
        = (t v - t u) * coxDeBoor t u p x := by ring
    rw [he, mul_div_cancel_left₀ _ hd]

/-- Local partition of unity: over a nonempty knot interval
`[t (a+p), t (a+p+1))` the `p+1` basis functions supported there sum
to `1`. -/
lemma coxDeBoor_sum_local (t : ℕ → ℚ) (ht : Monotone t) :
    ∀ (p a : ℕ) (x : ℚ), t (a + p) ≤ x → x < t (a + p + 1) →
      ∑ i in Finset.range (p + 1), coxDeBoor t (a + i) p x = 1 := by
  intro p
  induction p with
  | zero =>
    intro a x h1 h2
    simp only [Nat.zero_add, Finset.sum_range_one, coxDeBoor]
    rw [if_pos ⟨h1, h2⟩]
  | succ p ih =>
    intro a x h1 h2
    have hx1 : t (a + p + 1) ≤ x := h1
    have hx2 : x < t (a + p + 2) := h2
    have expand : ∀ i ∈ Finset.range (p + 2),
        coxDeBoor t (a + i) (p + 1) x
          = safeDiv (x - t (a + i)) (t (a + i + p + 1) - t (a + i))
              * coxDeBoor t (a + i) p x
            + safeDiv (t (a + i + p + 2) - x)
                (t (a + i + p + 2) - t (a + i + 1))
              * coxDeBoor t (a + i + 1) p x := fun i _ => rfl
    rw [Finset.sum_congr rfl expand, Finset.sum_add_distrib]
    have hA0 : coxDeBoor t (a + 0) p x = 0 :=
      coxDeBoor_eq_zero t ht p (a + 0) x (Or.inr hx1)
    have e1 : ∑ i in Finset.range (p + 2),
        safeDiv (x - t (a + i)) (t (a + i + p + 1) - t (a + i))
          * coxDeBoor t (a + i) p x
        = ∑ i in Finset.range (p + 1),
            safeDiv (x - t (a + i + 1)) (t (a + i + p + 2) - t (a + i + 1))
              * coxDeBoor t (a + i + 1) p x := by
      rw [Finset.sum_range_succ', hA0, mul_zero, add_zero]
      exact Finset.sum_congr rfl (fun i _ => by
        simp only [show a + (i + 1) = a + i + 1 from rfl]
        rw [show a + i + 1 + p + 1 = a + i + p + 2 from by omega])
    have hBp : coxDeBoor t (a + (p + 1) + 1) p x = 0 :=
      coxDeBoor_eq_zero t ht p (a + (p + 1) + 1) x (Or.inl hx2)
    have e2 : ∑ i in Finset.range (p + 2),
        safeDiv (t (a + i + p + 2) - x) (t (a + i + p + 2) - t (a + i + 1))
          * coxDeBoor t (a + i + 1) p x
        = ∑ i in Finset.range (p + 1),
            safeDiv (t (a + i + p + 2) - x) (t (a + i + p + 2) - t (a + i + 1))
              * coxDeBoor t (a + i + 1) p x := by
      rw [Finset.sum_range_succ, hBp, mul_zero, add_zero]
    rw [e1, e2, ← Finset.sum_add_distrib]
    have hcomb : ∑ i in Finset.range (p + 1),
        (safeDiv (x - t (a + i + 1)) (t (a + i + p + 2) - t (a + i + 1))
            * coxDeBoor t (a + i + 1) p x
          + safeDiv (t (a + i + p + 2) - x) (t (a + i + p + 2) - t (a + i + 1))
            * coxDeBoor t (a + i + 1) p x)
        = ∑ i in Finset.range (p + 1), coxDeBoor t (a + i + 1) p x :=
      Finset.sum_congr rfl (fun i _ =>
        coxDeBoor_combine t ht p (a + i + 1) (a + i + p + 2) x (by omega))
    rw [hcomb]
    have hshift : ∑ i in Finset.range (p + 1), coxDeBoor t (a + i + 1) p x
        = ∑ i in Finset.range (p + 1), coxDeBoor t (a + 1 + i) p x :=
      Finset.sum_congr rfl (fun i _ => by
        rw [show a + i + 1 = a + 1 + i from by omega])
    rw [hshift]
    exact ih (a + 1) x
      (by rw [show a + 1 + p = a + p + 1 from by omega]; exact hx1)
      (by rw [show a + 1 + p + 1 = a + p + 2 from by omega]; exact hx2)

/-- Global partition of unity: the full row of `n` basis functions sums
to `1` at any point of a nonempty knot interval indexed within range. -/
lemma coxDeBoor_sum_global (t : ℕ → ℚ) (ht : Monotone t) (p n a : ℕ)
    (x : ℚ) (han : a + p < n) (h1 : t (a + p) ≤ x) (h2 : x < t (a + p + 1)) :
    ∑ i in Finset.range n, coxDeBoor t i p x = 1 := by
  have hsub : Finset.Ico a (a + p + 1) ⊆ Finset.range n := by
    intro i hi
    rw [Finset.mem_Ico] at hi
    rw [Finset.mem_range]
    omega
  have hzero : ∀ i ∈ Finset.range n, i ∉ Finset.Ico a (a + p + 1) →
      coxDeBoor t i p x = 0 := by
    intro i _ hi
    rw [Finset.mem_Ico, not_and_or, not_le, not_lt] at hi
    rcases hi with h | h
    · exact coxDeBoor_eq_zero t ht p i x
        (Or.inr (le_trans (ht (by omega : i + p + 1 ≤ a + p)) h1))
    · exact coxDeBoor_eq_zero t ht p i x
        (Or.inl (lt_of_lt_of_le h2 (ht h)))
  rw [← Finset.sum_subset hsub hzero, Finset.sum_Ico_eq_sum_range,
    show a + p + 1 - a = p + 1 from by omega]
  exact coxDeBoor_sum_local t ht p a x h1 h2

/-- Any point of the basis domain `[t p, t n)` lies in some nonempty
knot interval `[t j, t (j+1))` with `p ≤ j < n`. -/
lemma exists_knot_interval (t : ℕ → ℚ) (p n : ℕ) (x : ℚ)
    (hpn : p < n) (hx1 : t p ≤ x) (hx2 : x < t n) :
    ∃ j, p ≤ j ∧ j < n ∧ t j ≤ x ∧ x < t (j + 1) := by
  have hple : p ≤ n - 1 := by omega
  have hjge : p ≤ Nat.findGreatest (fun k => t k ≤ x) (n - 1) :=
    Nat.le_findGreatest hple hx1
  have hjle : Nat.findGreatest (fun k => t k ≤ x) (n - 1) ≤ n - 1 :=
    Nat.findGreatest_le _
  have hPj : (fun k => t k ≤ x)
      (Nat.findGreatest (fun k => t k ≤ x) (n - 1)) :=
    @Nat.findGreatest_spec p (fun k => t k ≤ x) _ (n - 1) hple hx1
  refine ⟨Nat.findGreatest (fun k => t k ≤ x) (n - 1), hjge, by omega, hPj, ?_⟩
  rcases Nat.eq_or_lt_of_le hjle with he | hlt
  · rw [show Nat.findGreatest (fun k => t k ≤ x) (n - 1) + 1 = n from by omega]
    exact hx2
  · have hkb : Nat.findGreatest (fun k => t k ≤ x) (n - 1) + 1 ≤ n - 1 := by
      omega
    have hnot : ¬ (fun k => t k ≤ x)
        (Nat.findGreatest (fun k => t k ≤ x) (n - 1) + 1) :=
      Nat.findGreatest_is_greatest (Nat.lt_succ_self _) hkb
    exact lt_of_not_le hnot

/-- The extended knot lookup: `knots[i]` for an in-range index, clamped
to the last knot beyond the end (so that it is monotone on all of `ℕ`). -/
def tExt (knots : List ℚ) (i : ℕ) : ℚ :=
  knots.getD (min i (knots.length - 1)) 0

lemma tExt_monotone (knots : List ℚ) (hs : List.Sorted (· ≤ ·) knots) :
    Monotone (tExt knots) := by
  intro i j hij
  unfold tExt
  cases knots with
  | nil => simp
  | cons a l =>
    have hi : min i ((a :: l).length - 1) < (a :: l).length := by
      have := Nat.min_le_right i ((a :: l).length - 1)
      simp only [List.length_cons] at this ⊢
      omega
    have hj : min j ((a :: l).length - 1) < (a :: l).length := by
      have := Nat.min_le_right j ((a :: l).length - 1)
      simp only [List.length_cons] at this ⊢
      omega
    rw [List.getD_eq_getElem _ _ hi, List.getD_eq_getElem _ _ hj]
    have hmin : min i ((a :: l).length - 1) ≤ min j ((a :: l).length - 1) :=
      min_le_min hij (le_refl _)
    exact List.Sorted.rel_get_of_le hs hmin

/-- Modelled from the spec: one row of the design matrix produced by
`BasisEvaluator.evaluate` (not among the visible sources): the values of
the `len(knots) - degree - 1` basis functions of degree `deg` at `x`. -/
def designRow (knots : List ℚ) (deg : ℕ) (x : ℚ) : List ℚ :=
  (List.range (knots.length - deg - 1)).map
    (fun i => coxDeBoor (tExt knots) i deg x)

/-- Modelled from the spec: `BasisEvaluator.evaluate` (not among the
visible sources): the dense design matrix, one row per abscissa, one
column per basis function. -/
def evaluate (knots : List ℚ) (deg : ℕ) (abscissas : List ℚ) :
    List (List ℚ) :=
  abscissas.map (designRow knots deg)

lemma sum_map_range (f : ℕ → ℚ) (n : ℕ) :
    ((List.range n).map f).sum = ∑ i in Finset.range n, f i := by
  induction n with
  | zero => simp
  | succ n ih =>
    rw [List.range_succ, List.map_append, List.sum_append,
      Finset.sum_range_succ, ih]
    simp

lemma designRow_getD (knots : List ℚ) (deg : ℕ) (x : ℚ) (i : ℕ) :
    (designRow knots deg x).getD i 0
      = if i < knots.length - deg - 1
        then coxDeBoor (tExt knots) i deg x else 0 := by
  by_cases h : i < knots.length - deg - 1
  · have hl : i < (designRow knots deg x).length := by
      simp [designRow, h]
    rw [if_pos h, List.getD_eq_getElem _ _ hl]
    show ((List.range (knots.length - deg - 1)).map
      (fun i => coxDeBoor (tExt knots) i deg x))[i] = _
    rw [List.getElem_map, List.getElem_range]
  · rw [if_neg h]
    apply List.getD_eq_default
    simp only [designRow, List.length_map, List.length_range]
    omega

/-- Partition of unity for one row of the design matrix: at a point of
the basis domain, the basis values sum to `1`. -/
lemma partition_row_sum (knots : List ℚ) (deg : ℕ) (x : ℚ)
    (hs : List.Sorted (· ≤ ·) knots)
    (hx1 : tExt knots deg ≤ x)
    (hx2 : x < tExt knots (knots.length - deg - 1)) :
    (designRow knots deg x).sum = 1 := by
  have ht := tExt_monotone knots hs
  have hdn : deg < knots.length - deg - 1 := by
    by_contra hcon
    push_neg at hcon
    exact absurd (lt_of_le_of_lt hx1 hx2) (not_lt.mpr (ht hcon))
  obtain ⟨j, hj1, hj2, hj3, hj4⟩ :=
    exists_knot_interval (tExt knots) deg (knots.length - deg - 1) x hdn hx1 hx2
  rw [designRow, sum_map_range]
  exact coxDeBoor_sum_global (tExt knots) ht deg (knots.length - deg - 1)
    (j - deg) x (by omega)
    (by rw [show j - deg + deg = j from by omega]; exact hj3)
    (by rw [show j - deg + deg + 1 = j + 1 from by omega]; exact hj4)

/-! ## Claims -/

/-- Claim C1: for every nonempty derivative sequence, positive lag and
any `factor_deriv`, the displacement returns
`x_last = xmax + lag * len(deriv)`, `deriv_pred` the elementwise scaling
of `deriv`, and `x_pred` the arithmetic range starting at `xmax + lag`
with step `lag` containing exactly `len(deriv)` coordinates. -/
theorem displaced_forecast_covid_correct (deriv : List ℚ)
    (xmax lag factor_deriv : ℚ) (hne : deriv ≠ []) (hlag : 0 < lag) :
    displaced_forecast_covid deriv xmax lag factor_deriv
      = some ⟨xmax + lag * (deriv.length : ℚ),
              (List.range deriv.length).map
                (fun (i : ℕ) => (xmax + lag) + (i : ℚ) * lag),
              deriv.map (fun elem => elem * factor_deriv)⟩ ∧
    ((List.range deriv.length).map
        (fun (i : ℕ) => (xmax + lag) + (i : ℚ) * lag)).length
      = deriv.length :=
  ⟨displaced_forecast_covid_eq deriv xmax lag factor_deriv (ne_of_gt hlag),
    by simp⟩

/-- Witness for C1 at the spec's example `deriv=[1,2,3]`, `xmax=10`,
`lag=1`, `factor_deriv=2`: the result is `x_last=13`,
`x_pred=[11,12,13]`, `deriv_pred=[2,4,6]`. -/
theorem displaced_forecast_covid_correct_witness :
    ([(1 : ℚ), 2, 3] ≠ []) ∧ ((0 : ℚ) < 1) ∧
    displaced_forecast_covid [(1 : ℚ), 2, 3] 10 1 2
      = some ⟨13, [11, 12, 13], [2, 4, 6]⟩ := by
  have h := displaced_forecast_covid_correct [(1 : ℚ), 2, 3] 10 1 2
    (by simp) (by norm_num)
  refine ⟨by simp, by norm_num, ?_⟩
  rw [h.1]
  simp [List.range_succ]
  norm_num

/-- Counterexample to claim C2 as stated: at `deriv=[1,2,3]`, `xmax=10`,
`lag=1` the last element of `x_pred` is `13`, which equals `x_last`, not
`x_last - lag = 12`. -/
theorem displaced_forecast_last_counterexample :
    (displaced_forecast_covid [(1 : ℚ), 2, 3] 10 1 2).map
        (fun r => (r.x_pred.getLast?, r.x_last)) = some (some 13, 13) ∧
    some ((13 : ℚ)) ≠ some ((13 : ℚ) - 1) := by
  constructor
  · rw [displaced_forecast_covid_eq [(1 : ℚ), 2, 3] 10 1 2 (by norm_num)]
    simp [List.range_succ, List.getLast?_concat]
    norm_num
  · simp
    norm_num

/-- Claim C2 amended: for every nonempty derivative sequence and
positive lag, the last element of the returned `x_pred` equals `x_last`
itself (`x_last` is the last projected coordinate, not one lag-step past
it). -/
theorem displaced_forecast_x_pred_last (deriv : List ℚ)
    (xmax lag factor_deriv : ℚ) (hne : deriv ≠ []) (hlag : 0 < lag) :
    (displaced_forecast_covid deriv xmax lag factor_deriv).map
        (fun r => (r.x_pred.getLast?, r.x_last))
      = some (some (xmax + lag * (deriv.length : ℚ)),
              xmax + lag * (deriv.length : ℚ)) := by
  rcases deriv with _ | ⟨y, ys⟩
  · exact absurd rfl hne
  · rw [displaced_forecast_covid_eq _ _ _ _ (ne_of_gt hlag)]
    simp only [Option.map_some', List.length_cons]
    rw [arith_range_getLast]
    have he : (xmax + lag) + (ys.length : ℚ) * lag
        = xmax + lag * (((ys.length : ℕ) : ℚ) + 1) := by ring
    rw [he]
    push_cast
    rfl

/-- Witness for the amended C2 at `deriv=[1,2,3]`, `xmax=10`, `lag=1`:
the last element of `x_pred` and `x_last` are both `13`. -/
theorem displaced_forecast_x_pred_last_witness :
    ([(1 : ℚ), 2, 3] ≠ []) ∧ ((0 : ℚ) < 1) ∧
    (displaced_forecast_covid [(1 : ℚ), 2, 3] 10 1 2).map
        (fun r => (r.x_pred.getLast?, r.x_last)) = some (some 13, 13) := by
  have h := displaced_forecast_x_pred_last [(1 : ℚ), 2, 3] 10 1 2
    (by simp) (by norm_num)
  refine ⟨by simp, by norm_num, ?_⟩
  rw [h]
  norm_num

/-- Claim C3, behaviour of the code at the failing input class: with
`lag = 0` and any derivative sequence, `np.arange(xmax, xmax, 0)` is
reached with a zero step, which raises `ZeroDivisionError` (modelled as
`none`) instead of an explicit `DegenerateParameterError` or an empty
result. -/
theorem displaced_forecast_covid_zero_lag (deriv : List ℚ)
    (xmax factor_deriv : ℚ) :
    displaced_forecast_covid deriv xmax 0 factor_deriv = none := rfl

/-- Claim C4: the fitting-region operation returns, per axis, the
half-open row range `[int_back, int_back + n_samples)`. -/
theorem get_idx_fitting_region_correct (bspline_bases : List BsplineBasis) :
    (get_idx_fitting_region bspline_bases).length = bspline_bases.length ∧
    ∀ i (h : i < bspline_bases.length),
      (get_idx_fitting_region bspline_bases).getD i (0, 0)
        = ((bspline_bases.get ⟨i, h⟩).int_back,
           (bspline_bases.get ⟨i, h⟩).int_back
             + (bspline_bases.get ⟨i, h⟩).xsample.length) := by
  constructor
  · simp [get_idx_fitting_region]
  · intro i h
    have hl : i < (get_idx_fitting_region bspline_bases).length := by
      simpa [get_idx_fitting_region] using h
    rw [List.getD_eq_getElem _ _ hl]
    show (bspline_bases.map
      (fun bsp => (bsp.int_back, bsp.int_back + bsp.xsample.length)))[i] = _
    rw [List.getElem_map]
    rfl

/-- Witness for C4 at `int_back=2`, `n_samples=5`: the slice is `[2,7)`. -/
theorem get_idx_fitting_region_correct_witness :
    (0 : ℕ) < ([⟨[0, 1, 2, 3, 4], 2, 0, []⟩] : List BsplineBasis).length ∧
    (get_idx_fitting_region
        ([⟨[0, 1, 2, 3, 4], 2, 0, []⟩] : List BsplineBasis)).getD 0 (0, 0)
      = (2, 7) := by
  have h := get_idx_fitting_region_correct
    ([⟨[0, 1, 2, 3, 4], 2, 0, []⟩] : List BsplineBasis)
  exact ⟨by decide, by rw [h.2 0 (by decide)]; decide⟩

/-- Claim C5: `get_weighted_B` returns, per basis, a matrix of the same
shape as `matrixB` whose rows inside `[int_back, int_back + n_samples)`
equal the rows of `matrixB` and whose rows outside are all zero. -/
theorem get_weighted_B_rows_correct (b : BsplineBasis) :
    get_weighted_B [b]
      = [weightedB b.matrixB b.int_back (b.int_back + b.xsample.length)] ∧
    (weightedB b.matrixB b.int_back (b.int_back + b.xsample.length)).length
      = b.matrixB.length ∧
    ∀ i, i < b.matrixB.length →
      ((weightedB b.matrixB b.int_back
          (b.int_back + b.xsample.length)).getD i []).length
        = (b.matrixB.getD i []).length ∧
      (b.int_back ≤ i ∧ i < b.int_back + b.xsample.length →
        (weightedB b.matrixB b.int_back
            (b.int_back + b.xsample.length)).getD i []
          = b.matrixB.getD i []) ∧
      (¬(b.int_back ≤ i ∧ i < b.int_back + b.xsample.length) →
        (weightedB b.matrixB b.int_back
            (b.int_back + b.xsample.length)).getD i []
          = (b.matrixB.getD i []).map (fun _ => (0 : ℚ))) := by
  refine ⟨rfl, length_weightedB _ _ _, fun i hi => ?_⟩
  rw [weightedB_getD _ _ _ i hi]
  by_cases hc : b.int_back ≤ i ∧ i < b.int_back + b.xsample.length
  · rw [if_pos hc]
    exact ⟨rfl, fun _ => rfl, fun hn => absurd hc hn⟩
  · rw [if_neg hc]
    exact ⟨by rw [List.length_map], fun hp => absurd hp hc, fun _ => rfl⟩

/-- Witness for C5 on a basis with `int_back=1`, one sample and three
rows: the middle row is kept, the others are zeroed. -/
theorem get_weighted_B_rows_correct_witness :
    ((1 : ℕ) < 3) ∧ ((1 : ℕ) ≤ 1 ∧ (1 : ℕ) < 1 + 1) ∧ ((0 : ℕ) < 3) ∧
    ¬((1 : ℕ) ≤ 0 ∧ (0 : ℕ) < 1 + 1) ∧
    (weightedB [[(1 : ℚ), 2], [3, 4], [5, 6]] 1 (1 + 1)).getD 1 [] = [3, 4] ∧
    (weightedB [[(1 : ℚ), 2], [3, 4], [5, 6]] 1 (1 + 1)).getD 0 [] = [0, 0] := by
  have h := get_weighted_B_rows_correct
    ⟨[9], 1, 0, [[(1 : ℚ), 2], [3, 4], [5, 6]]⟩
  refine ⟨by decide, by decide, by decide, by decide, ?_, ?_⟩
  · exact ((h.2.2 1 (by decide)).2.1 (by decide)).trans (by decide)
  · exact ((h.2.2 0 (by decide)).2.2 (by decide)).trans (by decide)

/-- Claim C6: running `get_weighted_B` over the store never mutates the
matrix a basis refers to, and every returned reference is distinct from
the basis's own matrix reference (the zeroed copy is freshly
allocated). -/
theorem get_weighted_B_no_mutation (s : Store) (bases : List BsplineBasisRef)
    (b : BsplineBasisRef) (hb : b ∈ bases)
    (href : b.matrixBRef < s.arrays.length) :
    (get_weighted_B_heap s bases).1.read b.matrixBRef
      = s.read b.matrixBRef ∧
    ∀ r ∈ (get_weighted_B_heap s bases).2, r ≠ b.matrixBRef := by
  obtain ⟨⟨ext, hext⟩, hfresh⟩ := heap_run s bases
  constructor
  · show (get_weighted_B_heap s bases).1.arrays.getD b.matrixBRef [] = _
    rw [hext]
    exact List.getD_append _ _ _ _ href
  · intro r hr
    have := hfresh r hr
    omega

/-- Witness for C6 on a one-array store and one basis referring to it. -/
theorem get_weighted_B_no_mutation_witness :
    ((⟨[0], 0, 0, 0⟩ : BsplineBasisRef) ∈
      [(⟨[0], 0, 0, 0⟩ : BsplineBasisRef)]) ∧
    ((0 : ℕ) < 1) ∧
    (get_weighted_B_heap ⟨[[[(7 : ℚ)]]]⟩ [⟨[0], 0, 0, 0⟩]).1.read 0
      = Store.read ⟨[[[(7 : ℚ)]]]⟩ 0 := by
  have h := get_weighted_B_no_mutation (⟨[[[(7 : ℚ)]]]⟩ : Store)
    [⟨[0], 0, 0, 0⟩] ⟨[0], 0, 0, 0⟩ (by decide) (by decide)
  exact ⟨by decide, by decide, h.1⟩

/-- Claim C7: masking is idempotent, both for the per-axis masking
operation at any slice and for `get_weighted_B` re-applied to its own
output basis. -/
theorem weighted_matrix_idempotent :
    (∀ (m : List (List ℚ)) (lo hi : ℕ),
      weightedB (weightedB m lo hi) lo hi = weightedB m lo hi) ∧
    ∀ b : BsplineBasis,
      get_weighted_B [⟨b.xsample, b.int_back, b.int_forw,
          (get_weighted_B [b]).headI⟩]
        = get_weighted_B [b] := by
  refine ⟨weightedB_idem, fun b => ?_⟩
  show [weightedB
      (weightedB b.matrixB b.int_back (b.int_back + b.xsample.length))
      b.int_back (b.int_back + b.xsample.length)]
    = [weightedB b.matrixB b.int_back (b.int_back + b.xsample.length)]
  rw [weightedB_idem]

/-- Claim C8: on a basis with no extension (`int_back = int_forw = 0`,
so the matrix has exactly `n_samples` rows), the weighted matrix is
exactly the design matrix. -/
theorem get_weighted_B_zero_extension (b : BsplineBasis)
    (hback : b.int_back = 0) (hforw : b.int_forw = 0)
    (hshape : b.matrixB.length = b.xsample.length) :
    get_weighted_B [b] = [b.matrixB] := by
  have h1 : get_weighted_B [b]
      = [weightedB b.matrixB b.int_back (b.int_back + b.xsample.length)] :=
    rfl
  rw [h1, hback, show 0 + b.xsample.length = b.xsample.length from by omega,
    ← hshape, weightedB_full]

/-- Witness for C8 on a two-sample basis with no extension. -/
theorem get_weighted_B_zero_extension_witness :
    ((⟨[5, 6], 0, 0, [[(1 : ℚ)], [2]]⟩ : BsplineBasis).int_back = 0) ∧
    ((⟨[5, 6], 0, 0, [[(1 : ℚ)], [2]]⟩ : BsplineBasis).int_forw = 0) ∧
    ((2 : ℕ) = 2) ∧
    get_weighted_B [(⟨[5, 6], 0, 0, [[(1 : ℚ)], [2]]⟩ : BsplineBasis)]
      = [[[(1 : ℚ)], [2]]] := by
  have h := get_weighted_B_zero_extension
    (⟨[5, 6], 0, 0, [[(1 : ℚ)], [2]]⟩ : BsplineBasis) rfl rfl (by decide)
  exact ⟨rfl, rfl, rfl, h⟩

/-- Claim C9: partition of unity for the modelled basis evaluator — each
design-matrix row sums to `1` at any abscissa inside the domain of the
knot vector, and a column whose basis function has no support over the
abscissas is all zero. -/
theorem bspline_partition_of_unity (knots : List ℚ) (deg : ℕ)
    (abscissas : List ℚ) (hs : List.Sorted (· ≤ ·) knots) :
    (∀ x ∈ abscissas, tExt knots deg ≤ x →
        x < tExt knots (knots.length - deg - 1) →
        (designRow knots deg x).sum = 1) ∧
    (∀ i : ℕ,
        (∀ x ∈ abscissas, x < tExt knots i ∨ tExt knots (i + deg + 1) ≤ x) →
        ∀ row ∈ evaluate knots deg abscissas, row.getD i 0 = 0) := by
  constructor
  · intro x _ hx1 hx2
    exact partition_row_sum knots deg x hs hx1 hx2
  · intro i hcol row hrow
    obtain ⟨x, hx, rfl⟩ := List.mem_map.mp hrow
    rw [designRow_getD]
    by_cases h : i < knots.length - deg - 1
    · rw [if_pos h]
      exact coxDeBoor_eq_zero _ (tExt_monotone knots hs) deg i x (hcol x hx)
    · rw [if_neg h]

/-- Witness for C9 on the sorted knot vector `[0,1,2,3,4]`, degree `1`,
abscissa `3/2`: the row sums to `1` and column `2` (supported on
`[2,4)`) is zero there. -/
theorem bspline_partition_of_unity_witness :
    List.Sorted (· ≤ ·) [(0 : ℚ), 1, 2, 3, 4] ∧
    (designRow [(0 : ℚ), 1, 2, 3, 4] 1 (3 / 2)).sum = 1 ∧
    (designRow [(0 : ℚ), 1, 2, 3, 4] 1 (3 / 2)).getD 2 0 = 0 := by
  have h := bspline_partition_of_unity [(0 : ℚ), 1, 2, 3, 4] 1
    [(3 / 2 : ℚ)] (by norm_num [List.sorted_cons])
  refine ⟨by norm_num [List.sorted_cons], ?_, ?_⟩
  · exact h.1 (3 / 2) (by simp)
      (by rw [show tExt [(0 : ℚ), 1, 2, 3, 4] 1 = 1 from rfl]; norm_num)
      (by rw [show tExt [(0 : ℚ), 1, 2, 3, 4]
            ([(0 : ℚ), 1, 2, 3, 4].length - 1 - 1) = 3 from rfl]; norm_num)
  · exact h.2 2
      (fun x hx => by
        simp only [List.mem_singleton] at hx
        subst hx
        left
        rw [show tExt [(0 : ℚ), 1, 2, 3, 4] 2 = 2 from rfl]
        norm_num)
      (designRow [(0 : ℚ), 1, 2, 3, 4] 1 (3 / 2))
      (by simp [evaluate])

/-- Claim C10: on an empty derivative sequence with positive lag the
displacement returns `x_last = xmax` and empty `x_pred` and
`deriv_pred`. -/
theorem displaced_forecast_covid_empty (xmax lag factor_deriv : ℚ)
    (hlag : 0 < lag) :
    displaced_forecast_covid [] xmax lag factor_deriv
      = some ⟨xmax, [], []⟩ := by
  have h := displaced_forecast_covid_eq [] xmax lag factor_deriv
    (ne_of_gt hlag)
  simpa using h

/-- Witness for C10 at `xmax=5`, `lag=1`, `factor_deriv=7`. -/
theorem displaced_forecast_covid_empty_witness :
    ((0 : ℚ) < 1) ∧
    displaced_forecast_covid [] 5 1 7 = some ⟨5, [], []⟩ :=
  ⟨by norm_num, displaced_forecast_covid_empty 5 1 7 (by norm_num)⟩

end CPSplines
